import Mathlib

/-!
# Dining philosophers with a mutex and per-philosopher condition variables

A shallow embedding of `dining_philosophers/mutex_and_cond/dining_philosophers.c`.

* The global array `state[N]` is a `List state_enum`; the macro constant `N`
  and `MAX_EAT` are parameters of every definition.
* Indices are C `int`s.  Every index expression of the program is one of
  `i`, `(i + N - 1) % N`, `(i + 1) % N` with `0 ≤ i < N`; for `N ≤ 2 ^ 30`
  the sums stay below `2 ^ 31` (`index_sums_in_int_range`), so no `int`
  wraps around and `Nat` arithmetic is exact.  Likewise `num_eats` is only
  incremented while it is below `MAX_EAT`.
* A read `state[i]` is `rd st i`; it is only ever used at indices that are
  proved to be in range.  A write `state[i] = v` is `Mem.store`, which also
  appends the write to a trace of all writes performed so far.
* `pthread_cond_signal` calls of `put_forks` are returned as a list.
* The threads are interleaved by `step`: every critical section (the code run
  between `pthread_mutex_lock` and the next `pthread_mutex_unlock` or
  `pthread_cond_wait`) is one atomic step.
-/

set_option autoImplicit false
set_option linter.unusedVariables false

namespace DiningPhilosophers

/-! ## Data model -/

/-- The `enum state_enum {THINKING, HUNGRY, EATING}` of the program. -/
inductive state_enum where
  | THINKING
  | HUNGRY
  | EATING
  deriving DecidableEq, Repr, Inhabited

open state_enum

/-- The macro `LEFT(i)`, which expands to `((i) + N - 1) % N`. -/
def LEFT (N i : Nat) : Nat := (i + N - 1) % N

/-- The macro `RIGHT(i)`, which expands to `((i) + 1) % N`. -/
def RIGHT (N i : Nat) : Nat := (i + 1) % N

/-- The read `state[i]` of the global array.  The global is zero-initialised,
so the filler value for an index outside the list is `THINKING`; the program
never reads there (see `LEFT_lt`, `RIGHT_lt`). -/
def rd (st : List state_enum) (i : Nat) : state_enum := st.getD i THINKING

/-- The shared memory: the array `state` together with the trace of every
assignment `state[i] = v` executed so far, oldest first. -/
structure Mem where
  state : List state_enum
  writes : List (Nat × state_enum)
  deriving DecidableEq, Repr

/-- The assignment `state[i] = v`. -/
def Mem.store (m : Mem) (i : Nat) (v : state_enum) : Mem :=
  { state := m.state.set i v, writes := m.writes ++ [(i, v)] }

/-! ## The functions of the program -/

/-- The function `can_eat`: `state[phil_num] == HUNGRY &&
state[LEFT(phil_num)] != EATING && state[RIGHT(phil_num)] != EATING`. -/
def can_eat (N : Nat) (st : List state_enum) (phil_num : Nat) : Bool :=
  (rd st phil_num == HUNGRY) &&
    (rd st (LEFT N phil_num) != EATING) &&
    (rd st (RIGHT N phil_num) != EATING)

/-- How a call of `take_forks` leaves the critical section: it either runs to
its `pthread_mutex_unlock` and returns, or it blocks in `pthread_cond_wait`
(which releases the mutex). -/
inductive Outcome where
  | returns (m : Mem)
  | waits (m : Mem)
  deriving DecidableEq, Repr

/-- The function `take_forks` from its `pthread_mutex_lock` on: set
`state[phil_num] = HUNGRY`; if `!can_eat(phil_num)` block in
`pthread_cond_wait`, otherwise set `state[phil_num] = EATING` and return. -/
def take_forks (N : Nat) (m : Mem) (phil_num : Nat) : Outcome :=
  let m1 := m.store phil_num HUNGRY
  if !can_eat N m1.state phil_num then
    .waits m1
  else
    .returns (m1.store phil_num EATING)

/-- The rest of `take_forks` once `pthread_cond_wait` has returned (the
thread was woken and holds the mutex again): the wait sits under an `if`, not
a loop, so control falls through to `state[phil_num] = EATING` and the
function returns. -/
def take_forks_woken (m : Mem) (phil_num : Nat) : Outcome :=
  .returns (m.store phil_num EATING)

/-- The function `put_forks`: set `state[phil_num] = THINKING`, then signal
`waiting_to_eat[LEFT(phil_num)]` if `can_eat(LEFT(phil_num))` and
`waiting_to_eat[RIGHT(phil_num)]` if `can_eat(RIGHT(phil_num))`.  The second
component lists the indices of the signalled condition variables in program
order. -/
def put_forks (N : Nat) (m : Mem) (phil_num : Nat) : Mem × List Nat :=
  let m1 := m.store phil_num THINKING
  let s1 := if can_eat N m1.state (LEFT N phil_num) then [LEFT N phil_num] else []
  let s2 := if can_eat N m1.state (RIGHT N phil_num) then [RIGHT N phil_num] else []
  (m1, s1 ++ s2)

/-- The calls a philosopher thread makes that the claims speak about.
`hello`, `think` and `eat` each print one line. -/
inductive Call where
  | hello (phil_num : Nat)
  | think (phil_num : Nat)
  | take_forks (phil_num : Nat)
  | eat (phil_num : Nat) (eat_count : Nat)
  | put_forks (phil_num : Nat)
  deriving DecidableEq, Repr

/-- The thread that makes a call. -/
def Call.actor : Call → Nat
  | .hello p => p
  | .think p => p
  | .take_forks p => p
  | .eat p _ => p
  | .put_forks p => p

/-- The `while (num_eats < MAX_EAT)` loop of `philosopher` as the sequence of
calls it makes, every call taken to return. -/
def philosopher_loop (MAX_EAT phil_number : Nat) (num_eats : Nat) : List Call :=
  if num_eats < MAX_EAT then
    [Call.think phil_number, Call.take_forks phil_number,
      Call.eat phil_number (num_eats + 1), Call.put_forks phil_number]
      ++ philosopher_loop MAX_EAT phil_number (num_eats + 1)
  else
    []
termination_by MAX_EAT - num_eats

/-- The function `philosopher`: the greeting, then the loop from
`num_eats = 0`. -/
def philosopher (MAX_EAT phil_number : Nat) : List Call :=
  Call.hello phil_number :: philosopher_loop MAX_EAT phil_number 0

/-! ## The threads and their interleaving -/

/-- Program positions of a philosopher thread.

* `start`: before the greeting `printf`;
* `loop`: at the test of `while (num_eats < MAX_EAT)`;
* `take`: `think` has returned, about to call `take_forks`;
* `waiting`: blocked in the `pthread_cond_wait` of `take_forks`;
* `woken`: its condition was signalled, `pthread_cond_wait` has yet to
  re-acquire the mutex and return;
* `eat`: `take_forks` has returned, about to run `num_eats++; eat(..)`;
* `put`: about to call `put_forks`;
* `done`: the loop is over, at `pthread_exit`. -/
inductive PC where
  | start
  | loop
  | take
  | waiting
  | woken
  | eat
  | put
  | done
  deriving DecidableEq, Repr

/-- One philosopher thread: its program position and its local `num_eats`. -/
structure Thread where
  pc : PC
  num_eats : Nat
  deriving DecidableEq, Repr

/-- A state of the whole program: shared memory, the threads created by
`main` (thread `i` runs `philosopher` with argument `i`), and the calls made so
far in the order they happened. -/
structure Config where
  mem : Mem
  threads : List Thread
  trace : List Call
  deriving DecidableEq, Repr

/-- The function `think`: it prints one line. -/
def think (s : Config) (phil_num : Nat) : Config :=
  { s with trace := s.trace ++ [Call.think phil_num] }

/-- The function `eat`: it prints one line with the serving number. -/
def eat (s : Config) (phil_num eat_count : Nat) : Config :=
  { s with trace := s.trace ++ [Call.eat phil_num eat_count] }

/-- Thread `i` of a thread list (a finished thread outside the list). -/
def thr (ts : List Thread) (i : Nat) : Thread := ts.getD i ⟨PC.done, 0⟩

/-- The effect of `pthread_cond_signal(&waiting_to_eat[j])`: only thread `j`
ever waits on that condition variable; if it is blocked there it is woken,
otherwise the signal is lost. -/
def signal (ts : List Thread) (j : Nat) : List Thread :=
  if (thr ts j).pc = PC.waiting then
    ts.set j { (thr ts j) with pc := PC.woken }
  else
    ts

/-- The state `main` starts the threads in: `state` all `THINKING` (the
global is zero-initialised), `N` threads at the start of `philosopher`. -/
def init (N : Nat) : Config :=
  { mem := { state := List.replicate N THINKING, writes := [] }
    threads := List.replicate N ⟨PC.start, 0⟩
    trace := [] }

/-- The next atomic step of thread `p`, or `none` when thread `p` cannot
move (it does not exist, is blocked, or has terminated).  `K` is `MAX_EAT`. -/
def step (N K : Nat) (s : Config) (p : Nat) : Option Config :=
  if p < N then
    let t := thr s.threads p
    match t.pc with
    | PC.start =>
        some { s with
          threads := s.threads.set p { t with pc := PC.loop }
          trace := s.trace ++ [Call.hello p] }
    | PC.loop =>
        if t.num_eats < K then
          some { think s p with threads := s.threads.set p { t with pc := PC.take } }
        else
          some { s with threads := s.threads.set p { t with pc := PC.done } }
    | PC.take =>
        match take_forks N s.mem p with
        | Outcome.waits m =>
            some { mem := m
                   threads := s.threads.set p { t with pc := PC.waiting }
                   trace := s.trace ++ [Call.take_forks p] }
        | Outcome.returns m =>
            some { mem := m
                   threads := s.threads.set p { t with pc := PC.eat }
                   trace := s.trace ++ [Call.take_forks p] }
    | PC.waiting => none
    | PC.woken =>
        match take_forks_woken s.mem p with
        | Outcome.waits m =>
            some { s with mem := m, threads := s.threads.set p { t with pc := PC.waiting } }
        | Outcome.returns m =>
            some { s with mem := m, threads := s.threads.set p { t with pc := PC.eat } }
    | PC.eat =>
        some { eat s p (t.num_eats + 1) with
          threads := s.threads.set p { pc := PC.put, num_eats := t.num_eats + 1 } }
    | PC.put =>
        let r := put_forks N s.mem p
        some { mem := r.1
               threads := r.2.foldl signal (s.threads.set p { t with pc := PC.loop })
               trace := s.trace ++ [Call.put_forks p] }
    | PC.done => none
  else
    none

/-- The states reachable from `s0` by finitely many steps of any threads. -/
inductive Reach (N K : Nat) (s0 : Config) : Config → Prop where
  | refl : Reach N K s0 s0
  | next {s s' : Config} {p : Nat} :
      Reach N K s0 s → step N K s p = some s' → Reach N K s0 s'

/-- The states reachable from the initial state of the program. -/
def Reachable (N K : Nat) (s : Config) : Prop := Reach N K (init N) s

/-- Run a schedule: the listed threads take one step each, in order. -/
def run (N K : Nat) (s : Config) : List Nat → Option Config
  | [] => some s
  | p :: ps => (step N K s p).bind (fun s' => run N K s' ps)

/-- All `N` philosopher loops have terminated. -/
def final (N : Nat) (s : Config) : Prop :=
  ∀ i, i < N → (thr s.threads i).pc = PC.done

/-- Thread `i` is parked: blocked on its condition variable with no signal
pending. -/
def parked (s : Config) (i : Nat) : Prop := (thr s.threads i).pc = PC.waiting

/-- The instance that decides `parked` by looking at the program position. -/
instance (s : Config) (i : Nat) : Decidable (parked s i) := by
  unfold parked
  infer_instance

/-- The values written to slot `i`, oldest first. -/
def writesAt (m : Mem) (i : Nat) : List state_enum :=
  (m.writes.filter (fun w => w.1 == i)).map (fun w => w.2)

/-- The history of values of slot `i`: its initial value, then every value
written to it. -/
def slotHistory (m : Mem) (i : Nat) : List state_enum :=
  THINKING :: writesAt m i

/-- The writes of `n` full rounds: `HUNGRY, EATING, THINKING`, `n` times. -/
def rounds (n : Nat) : List state_enum :=
  (List.replicate n [HUNGRY, EATING, THINKING]).flatten

/-- Whether a call is an `eat` of thread `p`. -/
def isEatOf (p : Nat) : Call → Bool
  | Call.eat q _ => q == p
  | _ => false

/-- Whether a call is an `eat`. -/
def isEat : Call → Bool
  | Call.eat _ _ => true
  | _ => false

/-- The number of eat events of thread `p` in a trace. -/
def eatCount (tr : List Call) (p : Nat) : Nat := (tr.filter (isEatOf p)).length

/-- The number of eat events in a trace. -/
def eatTotal (tr : List Call) : Nat := (tr.filter isEat).length

/-- The value of `state[i]` at each program position of thread `i`. -/
def PC.cell : PC → state_enum
  | PC.start => THINKING
  | PC.loop => THINKING
  | PC.take => THINKING
  | PC.waiting => HUNGRY
  | PC.woken => HUNGRY
  | PC.eat => EATING
  | PC.put => EATING
  | PC.done => THINKING

/-- The writes thread `i` has made to its slot, by program position. -/
def Thread.expectedWrites (t : Thread) : List state_enum :=
  match t.pc with
  | PC.start => rounds t.num_eats
  | PC.loop => rounds t.num_eats
  | PC.take => rounds t.num_eats
  | PC.waiting => rounds t.num_eats ++ [HUNGRY]
  | PC.woken => rounds t.num_eats ++ [HUNGRY]
  | PC.eat => rounds t.num_eats ++ [HUNGRY, EATING]
  | PC.put => rounds (t.num_eats - 1) ++ [HUNGRY, EATING]
  | PC.done => rounds t.num_eats

/-- The calls of the loop body in the iteration that starts with
`num_eats = k`. -/
def iteration (p k : Nat) : List Call :=
  [Call.think p, Call.take_forks p, Call.eat p (k + 1), Call.put_forks p]

/-- The calls of the first `n` iterations of the loop of thread `p`. -/
def iterations (p n : Nat) : List Call := (List.range n).flatMap (iteration p)

/-- The calls of thread `p` in a trace. -/
def callsOf (tr : List Call) (p : Nat) : List Call :=
  tr.filter (fun c => c.actor == p)

/-- The calls thread `p` has made, by program position. -/
def Thread.expectedCalls (t : Thread) (p : Nat) : List Call :=
  match t.pc with
  | PC.start => []
  | PC.loop => Call.hello p :: iterations p t.num_eats
  | PC.take => Call.hello p :: (iterations p t.num_eats ++ [Call.think p])
  | PC.waiting =>
      Call.hello p :: (iterations p t.num_eats ++ [Call.think p, Call.take_forks p])
  | PC.woken =>
      Call.hello p :: (iterations p t.num_eats ++ [Call.think p, Call.take_forks p])
  | PC.eat =>
      Call.hello p :: (iterations p t.num_eats ++ [Call.think p, Call.take_forks p])
  | PC.put =>
      Call.hello p :: (iterations p (t.num_eats - 1) ++
        [Call.think p, Call.take_forks p, Call.eat p t.num_eats])
  | PC.done => Call.hello p :: iterations p t.num_eats

/-- The range of `num_eats` at each program position. -/
def Thread.countOk (K : Nat) (t : Thread) : Prop :=
  match t.pc with
  | PC.start => t.num_eats = 0
  | PC.loop => t.num_eats ≤ K
  | PC.take => t.num_eats < K
  | PC.waiting => t.num_eats < K
  | PC.woken => t.num_eats < K
  | PC.eat => t.num_eats < K
  | PC.put => 1 ≤ t.num_eats ∧ t.num_eats ≤ K
  | PC.done => t.num_eats = K

/-- What the program position of thread `i` says about the shared state. -/
structure Local (K : Nat) (s : Config) (i : Nat) : Prop where
  cell : rd s.mem.state i = (thr s.threads i).pc.cell
  count : (thr s.threads i).countOk K
  hist : writesAt s.mem i = (thr s.threads i).expectedWrites
  eats : eatCount s.trace i = (thr s.threads i).num_eats
  calls : callsOf s.trace i = (thr s.threads i).expectedCalls i

/-- The invariant of the interleaved program. -/
structure Inv (N K : Nat) (s : Config) : Prop where
  lenState : s.mem.state.length = N
  lenThreads : s.threads.length = N
  loc : ∀ i, i < N → Local K s i
  wait : ∀ i, i < N → parked s i →
    rd s.mem.state (LEFT N i) = EATING ∨ rd s.mem.state (RIGHT N i) = EATING
  actors : ∀ c, c ∈ s.trace → c.actor < N
  notAllHungry : 0 < N → ∃ i, i < N ∧ rd s.mem.state i ≠ HUNGRY

/-- The successor of a value in the cycle `THINKING → HUNGRY → EATING →
THINKING`. -/
def state_enum.next : state_enum → state_enum
  | THINKING => HUNGRY
  | HUNGRY => EATING
  | EATING => THINKING

/-- The instance that decides `final` by testing every thread. -/
instance (N : Nat) (s : Config) : Decidable (final N s) := by
  unfold final
  infer_instance

/-- The state a schedule leads to from the initial state (the initial state
itself if some listed thread cannot move). -/
def after (N K : Nat) (sched : List Nat) : Config :=
  (run N K (init N) sched).getD (init N)

/-- With `N = 3`, `MAX_EAT = 1`: every philosopher has greeted and thought,
all three are about to call `take_forks`. -/
def allAboutToTake3 : Config := after 3 1 [0, 0, 1, 1, 2, 2]

/-- With `N = 5`, `MAX_EAT = 5`: philosopher 0 eats, 1 blocks on it, 0 puts
its forks down and signals 1, then 2 takes its forks before 1 has run again. -/
def lateWake : Config := after 5 5 [0, 0, 0, 1, 1, 1, 0, 0, 2, 2, 2]

/-- The steps of one philosopher that runs alone from its start to its
`pthread_exit`: greeting, `K` times (loop test and `think`, `take_forks`,
`eat`, `put_forks`), final loop test. -/
def soloSchedule (K p : Nat) : List Nat := List.replicate (4 * K + 2) p

/-- The schedule in which the philosophers `0, ..., N - 1` run one after the
other, each to completion. -/
def serialSchedule (N K : Nat) : List Nat :=
  (List.range N).flatMap (soloSchedule K)

/-- A list of slot values in which every value is followed by its successor
in the cycle. -/
def cyclic : List state_enum → Prop
  | [] => True
  | [_] => True
  | a :: b :: rest => b = a.next ∧ cyclic (b :: rest)

/-- With `N = 3`, `MAX_EAT = 1`, from `allAboutToTake3`: philosopher 0 takes
its forks and eats, 1 and 2 call `take_forks` and block. -/
def twoParked3 : Config := (run 3 1 allAboutToTake3 [0, 1, 2]).getD allAboutToTake3

/-- With `N = 5`, `MAX_EAT = 5`: philosopher 0 eats and 1 is blocked on it. -/
def oneParked5 : Config := after 5 5 [0, 0, 0, 1, 1, 1]

/-- With `N = 5`, `MAX_EAT = 5`: the state `lateWake` after the woken
philosopher 1 has run again. -/
def bothEat5 : Config := after 5 5 [0, 0, 0, 1, 1, 1, 0, 0, 2, 2, 2, 1]

/-- With `N = 5`, `MAX_EAT = 5`: all five philosophers have run to completion,
one after the other. -/
def allDone5 : Config := after 5 5 (serialSchedule 5 5)

/-! ## Index arithmetic and memory lemmas -/

theorem LEFT_lt (N i : Nat) (hN : 1 ≤ N) : LEFT N i < N :=
  Nat.mod_lt _ hN

theorem RIGHT_lt (N i : Nat) (hN : 1 ≤ N) : RIGHT N i < N :=
  Nat.mod_lt _ hN

/-- The sums inside `LEFT(i)` and `RIGHT(i)` fit a 32-bit `int`. -/
theorem index_sums_in_int_range (N i : Nat) (hN : N ≤ 2 ^ 30) (hi : i < N) :
    i + N - 1 < 2 ^ 31 ∧ i + 1 < 2 ^ 31 := by
  constructor <;> omega

theorem RIGHT_LEFT (N i : Nat) (hi : i < N) : RIGHT N (LEFT N i) = i := by
  unfold RIGHT LEFT
  have h1 : (i + N - 1) % N + 1 ≡ i + N - 1 + 1 [MOD N] :=
    Nat.ModEq.add_right 1 (Nat.mod_modEq _ _)
  have h2 : i + N - 1 + 1 = i + N := by omega
  rw [h2] at h1
  have h3 : ((i + N - 1) % N + 1) % N = (i + N) % N := h1
  rw [h3, Nat.add_mod_right, Nat.mod_eq_of_lt hi]

theorem LEFT_RIGHT (N i : Nat) (hi : i < N) : LEFT N (RIGHT N i) = i := by
  unfold RIGHT LEFT
  have hN : 1 ≤ N := by omega
  have h1 : (i + 1) % N + (N - 1) ≡ i + 1 + (N - 1) [MOD N] :=
    Nat.ModEq.add_right (N - 1) (Nat.mod_modEq _ _)
  have h2 : i + 1 + (N - 1) = i + N := by omega
  have h4 : (i + 1) % N + N - 1 = (i + 1) % N + (N - 1) := by omega
  rw [h2] at h1
  have h3 : ((i + 1) % N + (N - 1)) % N = (i + N) % N := h1
  rw [h4, h3, Nat.add_mod_right, Nat.mod_eq_of_lt hi]

theorem rd_set_self (st : List state_enum) (i : Nat) (v : state_enum)
    (hi : i < st.length) : rd (st.set i v) i = v := by
  simp [rd, List.getD_eq_getElem?_getD, List.getElem?_set, hi]

theorem rd_set_ne (st : List state_enum) (i j : Nat) (v : state_enum)
    (hij : i ≠ j) : rd (st.set i v) j = rd st j := by
  simp [rd, List.getD_eq_getElem?_getD, List.getElem?_set, hij]

theorem rd_replicate (N i : Nat) : rd (List.replicate N THINKING) i = THINKING := by
  simp only [rd, List.getD_eq_getElem?_getD, List.getElem?_replicate]
  split <;> rfl

theorem can_eat_iff (N : Nat) (st : List state_enum) (i : Nat) :
    can_eat N st i = true ↔
      rd st i = HUNGRY ∧ rd st (LEFT N i) ≠ EATING ∧ rd st (RIGHT N i) ≠ EATING := by
  simp [can_eat, and_assoc]

theorem mem_put_forks (N : Nat) (m : Mem) (i j : Nat) :
    j ∈ (put_forks N m i).2 ↔
      (j = LEFT N i ∨ j = RIGHT N i) ∧ can_eat N (m.state.set i THINKING) j = true := by
  simp only [put_forks, Mem.store, List.mem_append]
  constructor
  · rintro (h | h)
    · split at h
      · rename_i hc
        simp only [List.mem_singleton] at h
        subst h
        exact ⟨Or.inl rfl, hc⟩
      · simp at h
    · split at h
      · rename_i hc
        simp only [List.mem_singleton] at h
        subst h
        exact ⟨Or.inr rfl, hc⟩
      · simp at h
  · rintro ⟨h | h, hc⟩
    · subst h
      left
      simp [hc]
    · subst h
      right
      simp [hc]

theorem iterations_succ (p n : Nat) :
    iterations p (n + 1) = iterations p n ++ iteration p n := by
  simp [iterations, List.range_succ, List.flatMap_append]

theorem iterations_length (p n : Nat) : (iterations p n).length = 4 * n := by
  induction n with
  | zero => rfl
  | succ n ih =>
      rw [iterations_succ, List.length_append, ih]
      simp [iteration]
      omega

theorem philosopher_loop_eq (K p : Nat) :
    ∀ d n, n ≤ K → K - n = d →
      iterations p n ++ philosopher_loop K p n = iterations p K := by
  intro d
  induction d with
  | zero =>
      intro n hle hd
      have hn : ¬ n < K := by omega
      have hK : n = K := by omega
      subst hK
      unfold philosopher_loop
      simp only [hn, if_false, List.append_nil]
  | succ d ih =>
      intro n hle hd
      have hn : n < K := by omega
      unfold philosopher_loop
      simp only [hn, if_true]
      have := ih (n + 1) (by omega) (by omega)
      rw [← this, iterations_succ]
      simp [iteration]

/-! ## Lemmas on threads, write traces and call traces -/

theorem thr_set_self (ts : List Thread) (i : Nat) (t : Thread) (hi : i < ts.length) :
    thr (ts.set i t) i = t := by
  simp [thr, List.getD_eq_getElem?_getD, List.getElem?_set, hi]

theorem thr_set_ne (ts : List Thread) (i j : Nat) (t : Thread) (hij : i ≠ j) :
    thr (ts.set i t) j = thr ts j := by
  simp [thr, List.getD_eq_getElem?_getD, List.getElem?_set, hij]

theorem thr_of_length_le (ts : List Thread) (i : Nat) (hi : ts.length ≤ i) :
    thr ts i = ⟨PC.done, 0⟩ := by
  simp [thr, List.getD_eq_getElem?_getD, List.getElem?_eq_none hi]

theorem thr_replicate (N i : Nat) (hi : i < N) :
    thr (List.replicate N ⟨PC.start, 0⟩) i = ⟨PC.start, 0⟩ := by
  simp [thr, List.getD_eq_getElem?_getD, List.getElem?_replicate, hi]

theorem signal_length (ts : List Thread) (j : Nat) : (signal ts j).length = ts.length := by
  unfold signal
  split <;> simp

theorem signals_length (sigs : List Nat) :
    ∀ ts : List Thread, (sigs.foldl signal ts).length = ts.length := by
  induction sigs with
  | nil => intro ts; rfl
  | cons j rest ih =>
      intro ts
      rw [List.foldl_cons, ih, signal_length]

theorem thr_signal (ts : List Thread) (j k : Nat) :
    thr (signal ts j) k =
      if k = j ∧ (thr ts k).pc = PC.waiting then { thr ts k with pc := PC.woken }
      else thr ts k := by
  unfold signal
  by_cases hk : k = j
  · subst hk
    by_cases hw : (thr ts k).pc = PC.waiting
    · have hlen : k < ts.length := by
        by_contra hge
        rw [thr_of_length_le ts k (by omega)] at hw
        exact absurd hw (by decide)
      simp [hw, thr_set_self ts k _ hlen]
    · simp [hw]
  · have hjk : j ≠ k := fun h => hk h.symm
    by_cases hw : (thr ts j).pc = PC.waiting
    · simp [hw, hk, thr_set_ne ts j k _ hjk]
    · simp [hw, hk]

theorem thr_signals (sigs : List Nat) (k : Nat) :
    ∀ ts : List Thread, thr (sigs.foldl signal ts) k =
      if k ∈ sigs ∧ (thr ts k).pc = PC.waiting then { thr ts k with pc := PC.woken }
      else thr ts k := by
  induction sigs with
  | nil => intro ts; simp
  | cons j rest ih =>
      intro ts
      have hs := thr_signal ts j k
      rw [List.foldl_cons, ih (signal ts j)]
      by_cases hw : (thr ts k).pc = PC.waiting
      · by_cases hk : k = j
        · rw [if_pos ⟨hk, hw⟩] at hs
          rw [hs, if_neg (fun h => PC.noConfusion h.2),
            if_pos ⟨by rw [hk]; exact List.mem_cons_self _ _, hw⟩]
        · rw [if_neg (fun h => hk h.1)] at hs
          rw [hs]
          by_cases hm : k ∈ rest
          · rw [if_pos ⟨hm, hw⟩, if_pos ⟨List.mem_cons_of_mem _ hm, hw⟩]
          · rw [if_neg (fun h => hm h.1),
              if_neg (fun h => by
                rcases List.mem_cons.1 h.1 with h1 | h1
                · exact hk h1
                · exact hm h1)]
      · rw [if_neg (fun h => hw h.2)] at hs
        rw [hs, if_neg (fun h => hw h.2), if_neg (fun h => hw h.2)]

theorem rd_store_self (m : Mem) (i : Nat) (v : state_enum) (hi : i < m.state.length) :
    rd (m.store i v).state i = v :=
  rd_set_self _ _ _ hi

theorem rd_store_ne (m : Mem) (i j : Nat) (v : state_enum) (hij : i ≠ j) :
    rd (m.store i v).state j = rd m.state j :=
  rd_set_ne _ _ _ _ hij

theorem store_length (m : Mem) (i : Nat) (v : state_enum) :
    (m.store i v).state.length = m.state.length := by
  simp [Mem.store]

theorem writesAt_store_self (m : Mem) (i : Nat) (v : state_enum) :
    writesAt (m.store i v) i = writesAt m i ++ [v] := by
  simp [writesAt, Mem.store, List.filter_append]

theorem writesAt_store_ne (m : Mem) (i j : Nat) (v : state_enum) (hij : i ≠ j) :
    writesAt (m.store i v) j = writesAt m j := by
  simp [writesAt, Mem.store, List.filter_append, hij]

theorem eatCount_append (tr : List Call) (c : Call) (j : Nat) :
    eatCount (tr ++ [c]) j = eatCount tr j + (if isEatOf j c = true then 1 else 0) := by
  unfold eatCount
  rw [List.filter_append, List.length_append]
  by_cases h : isEatOf j c = true <;> simp [List.filter, h]

theorem callsOf_append_self (tr : List Call) (c : Call) (j : Nat) (h : c.actor = j) :
    callsOf (tr ++ [c]) j = callsOf tr j ++ [c] := by
  simp [callsOf, List.filter_append, List.filter, h]

theorem callsOf_append_ne (tr : List Call) (c : Call) (j : Nat) (h : c.actor ≠ j) :
    callsOf (tr ++ [c]) j = callsOf tr j := by
  have hb : (c.actor == j) = false := by simpa using h
  simp [callsOf, List.filter_append, List.filter, hb]

theorem rounds_succ (n : Nat) : rounds (n + 1) = rounds n ++ [HUNGRY, EATING, THINKING] := by
  unfold rounds
  rw [List.replicate_succ']
  simp

/-- A thread that is not the one that moved keeps its local invariant when
its slot, its writes and its calls are untouched and it was at most woken. -/
theorem Local.transfer {K : Nat} {s s' : Config} {j : Nat} (h : Local K s j)
    (hc : rd s'.mem.state j = rd s.mem.state j)
    (hw : writesAt s'.mem j = writesAt s.mem j)
    (he : eatCount s'.trace j = eatCount s.trace j)
    (hcalls : callsOf s'.trace j = callsOf s.trace j)
    (ht : thr s'.threads j = thr s.threads j ∨
      ((thr s.threads j).pc = PC.waiting ∧
        thr s'.threads j = { thr s.threads j with pc := PC.woken })) :
    Local K s' j := by
  rcases ht with ht | ⟨hpc, ht⟩
  · exact ⟨by rw [hc, ht]; exact h.cell, by rw [ht]; exact h.count,
      by rw [hw, ht]; exact h.hist, by rw [he, ht]; exact h.eats,
      by rw [hcalls, ht]; exact h.calls⟩
  · have h1 := h.cell
    have h2 := h.count
    have h3 := h.hist
    have h4 := h.eats
    have h5 := h.calls
    refine ⟨?_, ?_, ?_, ?_, ?_⟩
    · rw [hc, ht, h1, hpc]; rfl
    · rw [ht]
      simp only [Thread.countOk, hpc] at h2 ⊢
      exact h2
    · rw [hw, ht, h3]
      simp only [Thread.expectedWrites, hpc]
    · rw [he, ht, h4]
    · rw [hcalls, ht, h5]
      simp only [Thread.expectedCalls, hpc]

theorem isEatOf_actor (j : Nat) (c : Call) (h : isEatOf j c = true) : c.actor = j := by
  cases c <;> simp_all [isEatOf, Call.actor]

theorem eatCount_append_ne (tr cs : List Call) (p j : Nat) (hj : j ≠ p)
    (hcs : ∀ c, c ∈ cs → c.actor = p) : eatCount (tr ++ cs) j = eatCount tr j := by
  unfold eatCount
  rw [List.filter_append]
  have : cs.filter (isEatOf j) = [] := by
    rw [List.filter_eq_nil_iff]
    intro c hc h
    exact hj ((isEatOf_actor j c h).symm.trans (hcs c hc))
  rw [this, List.append_nil]

theorem callsOf_append_list_ne (tr cs : List Call) (p j : Nat) (hj : j ≠ p)
    (hcs : ∀ c, c ∈ cs → c.actor = p) : callsOf (tr ++ cs) j = callsOf tr j := by
  unfold callsOf
  rw [List.filter_append]
  have : cs.filter (fun c => c.actor == j) = [] := by
    rw [List.filter_eq_nil_iff]
    intro c hc h
    have h1 : c.actor = j := by simpa using h
    exact hj (h1.symm.trans (hcs c hc))
  rw [this, List.append_nil]

/-- The frame of a step of thread `p`: what has to be shown about thread `p`
and about the parked threads, everything else carries over. -/
theorem Inv.update {N K : Nat} {s s' : Config} {p : Nat} (hinv : Inv N K s) (hp : p < N)
    (cs : List Call)
    (hlenS : s'.mem.state.length = N) (hlenT : s'.threads.length = N)
    (hloc : Local K s' p)
    (hrd : ∀ j, j ≠ p → rd s'.mem.state j = rd s.mem.state j)
    (hwr : ∀ j, j ≠ p → writesAt s'.mem j = writesAt s.mem j)
    (htr : s'.trace = s.trace ++ cs) (hcs : ∀ c, c ∈ cs → c.actor = p)
    (hthr : ∀ j, j ≠ p → (thr s'.threads j = thr s.threads j ∨
      ((thr s.threads j).pc = PC.waiting ∧
        thr s'.threads j = { thr s.threads j with pc := PC.woken })))
    (hwait : ∀ i, i < N → parked s' i →
      rd s'.mem.state (LEFT N i) = EATING ∨ rd s'.mem.state (RIGHT N i) = EATING)
    (hnah : ∃ i, i < N ∧ rd s'.mem.state i ≠ HUNGRY) :
    Inv N K s' := by
  refine ⟨hlenS, hlenT, ?_, hwait, ?_, fun _ => hnah⟩
  · intro j hj
    by_cases hjp : j = p
    · rw [hjp]; exact hloc
    · exact (hinv.loc j hj).transfer (hrd j hjp) (hwr j hjp)
        (by rw [htr]; exact eatCount_append_ne _ _ p j hjp hcs)
        (by rw [htr]; exact callsOf_append_list_ne _ _ p j hjp hcs)
        (hthr j hjp)
  · intro c hc
    rw [htr] at hc
    rcases List.mem_append.1 hc with h | h
    · exact hinv.actors c h
    · rw [hcs c h]; exact hp

theorem inv_init (N K : Nat) : Inv N K (init N) := by
  refine ⟨by simp [init], by simp [init], ?_, ?_, ?_, ?_⟩
  · intro i hi
    have ht : thr (init N).threads i = ⟨PC.start, 0⟩ := thr_replicate N i hi
    refine ⟨?_, ?_, ?_, ?_, ?_⟩
    · rw [ht]; exact rd_replicate N i
    · rw [ht]; rfl
    · rw [ht]; rfl
    · rw [ht]; rfl
    · rw [ht]; rfl
  · intro i hi hpk
    have ht : thr (init N).threads i = ⟨PC.start, 0⟩ := thr_replicate N i hi
    unfold parked at hpk
    rw [ht] at hpk
    exact absurd hpk (by decide)
  · intro c hc
    simp [init] at hc
  · intro hN
    exact ⟨0, hN, by rw [show (init N).mem.state = List.replicate N THINKING from rfl,
      rd_replicate]; decide⟩

/-- The cell of a thread holds `EATING` only while the thread is between
`take_forks` and `put_forks`. -/
theorem Inv.eating_pc {N K : Nat} {s : Config} (hinv : Inv N K s) {q : Nat} (hq : q < N)
    (h : rd s.mem.state q = EATING) :
    (thr s.threads q).pc = PC.eat ∨ (thr s.threads q).pc = PC.put := by
  have hc := (hinv.loc q hq).cell
  rw [h] at hc
  cases hpc : (thr s.threads q).pc <;> rw [hpc] at hc <;> simp [PC.cell] at hc ⊢

/-- Writing slot `p`, which does not hold `EATING`, keeps every `EATING`. -/
theorem rd_set_keeps_eating (st : List state_enum) (p q : Nat) (v : state_enum)
    (hp : rd st p ≠ EATING) (hq : rd st q = EATING) : rd (st.set p v) q = EATING := by
  have hpq : p ≠ q := by
    intro h
    rw [h] at hp
    exact hp hq
  rw [rd_set_ne _ _ _ _ hpq]
  exact hq

theorem eating_neighbour_of_not_can_eat (N : Nat) (st : List state_enum) (i : Nat)
    (hH : rd st i = HUNGRY) (hc : can_eat N st i = false) :
    rd st (LEFT N i) = EATING ∨ rd st (RIGHT N i) = EATING := by
  by_contra hno
  have h1 : rd st (LEFT N i) ≠ EATING := fun h => hno (Or.inl h)
  have h2 : rd st (RIGHT N i) ≠ EATING := fun h => hno (Or.inr h)
  have := (can_eat_iff N st i).2 ⟨hH, h1, h2⟩
  rw [hc] at this
  exact absurd this (by decide)

theorem not_parked_of_set {ts : List Thread} {p i : Nat} {t' : Thread}
    (ht' : t'.pc ≠ PC.waiting) (hp : p < ts.length)
    (h : (thr (ts.set p t') i).pc = PC.waiting) :
    i ≠ p ∧ (thr ts i).pc = PC.waiting := by
  by_cases hip : i = p
  · rw [hip, thr_set_self ts p t' hp] at h
    exact absurd h ht'
  · rw [thr_set_ne ts p i t' (Ne.symm hip)] at h
    exact ⟨hip, h⟩

/-- A step that leaves the memory alone and parks nobody keeps the parked
threads next to an eating neighbour. -/
theorem wait_same_mem {N K : Nat} {s : Config} (hinv : Inv N K s) {p : Nat} {t' : Thread}
    {tr : List Call} (ht' : t'.pc ≠ PC.waiting) (hp : p < s.threads.length) :
    ∀ i, i < N →
      parked { mem := s.mem, threads := s.threads.set p t', trace := tr } i →
      rd s.mem.state (LEFT N i) = EATING ∨ rd s.mem.state (RIGHT N i) = EATING := by
  intro i hi hpk
  exact hinv.wait i hi (not_parked_of_set ht' hp hpk).2

theorem Local.of_thread {K : Nat} {s' : Config} {p : Nat} {t' : Thread}
    (ht : thr s'.threads p = t')
    (hcell : rd s'.mem.state p = t'.pc.cell) (hcount : t'.countOk K)
    (hhist : writesAt s'.mem p = t'.expectedWrites)
    (heats : eatCount s'.trace p = t'.num_eats)
    (hcalls : callsOf s'.trace p = t'.expectedCalls p) : Local K s' p := by
  subst ht
  exact ⟨hcell, hcount, hhist, heats, hcalls⟩

theorem Inv.step_preserves {N K : Nat} {s s' : Config} {p : Nat} (hinv : Inv N K s)
    (h : step N K s p = some s') : Inv N K s' := by
  unfold DiningPhilosophers.step at h
  split at h
  · rename_i hp
    have hloc := hinv.loc p hp
    have hpT : p < s.threads.length := by rw [hinv.lenThreads]; exact hp
    have hpS : p < s.mem.state.length := by rw [hinv.lenState]; exact hp
    have hcell := hloc.cell
    have hcount := hloc.count
    have hhist := hloc.hist
    have hcalls := hloc.calls
    have heats := hloc.eats
    simp only at h
    split at h
    · -- the greeting
      rename_i hpc
      injection h with h
      subst h
      simp only [Thread.countOk, Thread.expectedWrites, Thread.expectedCalls, hpc, PC.cell]
        at hcell hcount hhist hcalls
      refine Inv.update hinv hp [Call.hello p] hinv.lenState
        (by simp [hinv.lenThreads]) ?_ (fun _ _ => rfl) (fun _ _ => rfl) rfl
        (by simp [Call.actor]) (fun j hj => Or.inl (thr_set_ne _ _ _ _ (Ne.symm hj)))
        (wait_same_mem hinv (by simp) hpT) (hinv.notAllHungry (by omega))
      refine Local.of_thread (thr_set_self _ _ _ hpT) hcell ?_ hhist ?_ ?_
      · simp only [Thread.countOk, hcount]
        exact Nat.zero_le _
      · show eatCount (s.trace ++ [Call.hello p]) p = _
        rw [eatCount_append, heats]; rfl
      · show callsOf (s.trace ++ [Call.hello p]) p = _
        rw [callsOf_append_self s.trace (Call.hello p) p rfl, hcalls]
        simp only [Thread.expectedCalls, hcount]
        rfl
    · -- the loop test
      rename_i hpc
      simp only [Thread.countOk, Thread.expectedWrites, Thread.expectedCalls, hpc, PC.cell]
        at hcell hcount hhist hcalls
      split at h
      · rename_i hlt
        injection h with h
        subst h
        refine Inv.update hinv hp [Call.think p] hinv.lenState
          (by simp [hinv.lenThreads]) ?_ (fun _ _ => rfl) (fun _ _ => rfl) rfl
          (by simp [Call.actor]) (fun j hj => Or.inl (thr_set_ne _ _ _ _ (Ne.symm hj)))
          (wait_same_mem hinv (by simp) hpT) (hinv.notAllHungry (by omega))
        refine Local.of_thread (thr_set_self _ _ _ hpT) hcell hlt hhist ?_ ?_
        · show eatCount (s.trace ++ [Call.think p]) p = _
          rw [eatCount_append, heats]; rfl
        · show callsOf (s.trace ++ [Call.think p]) p = _
          rw [callsOf_append_self s.trace (Call.think p) p rfl, hcalls]
          simp only [Thread.expectedCalls]
          rfl
      · rename_i hge
        injection h with h
        subst h
        refine Inv.update hinv hp [] hinv.lenState
          (by simp [hinv.lenThreads]) ?_ (fun _ _ => rfl) (fun _ _ => rfl) (by simp)
          (by simp) (fun j hj => Or.inl (thr_set_ne _ _ _ _ (Ne.symm hj)))
          (wait_same_mem hinv (by simp) hpT) (hinv.notAllHungry (by omega))
        refine Local.of_thread (thr_set_self _ _ _ hpT) hcell ?_ hhist heats hcalls
        show (thr s.threads p).num_eats = K
        omega
    · -- the call of take_forks
      rename_i hpc
      simp only [Thread.countOk, Thread.expectedWrites, Thread.expectedCalls, hpc, PC.cell]
        at hcell hcount hhist hcalls
      have hcallsNew : callsOf (s.trace ++ [Call.take_forks p]) p =
          Call.hello p :: (iterations p (thr s.threads p).num_eats ++
            [Call.think p, Call.take_forks p]) := by
        rw [callsOf_append_self s.trace (Call.take_forks p) p rfl, hcalls]
        simp
      have heatsNew : eatCount (s.trace ++ [Call.take_forks p]) p =
          (thr s.threads p).num_eats := by
        rw [eatCount_append, heats]; rfl
      have hT : rd s.mem.state p ≠ EATING := by rw [hcell]; decide
      unfold take_forks at h
      simp only at h
      by_cases hce : can_eat N (s.mem.store p HUNGRY).state p = true
      · -- the forks are free
        simp only [hce, Bool.not_true, Bool.false_eq_true, if_false] at h
        injection h with h
        subst h
        refine Inv.update hinv hp [Call.take_forks p]
          (by simp [store_length, hinv.lenState])
          (by simp [hinv.lenThreads]) ?_ ?_ ?_ rfl
          (by simp [Call.actor]) (fun j hj => Or.inl (thr_set_ne _ _ _ _ (Ne.symm hj))) ?_
          ⟨p, hp, by
            rw [rd_store_self _ _ _ (by simp [store_length, hpS])]; decide⟩
        · refine Local.of_thread (thr_set_self _ _ _ hpT) ?_ hcount ?_ heatsNew hcallsNew
          · exact rd_store_self _ _ _ (by simp [store_length, hpS])
          · show writesAt ((s.mem.store p HUNGRY).store p EATING) p = _
            rw [writesAt_store_self, writesAt_store_self, hhist]
            simp [Thread.expectedWrites]
        · intro j hj
          show rd ((s.mem.store p HUNGRY).store p EATING).state j = _
          rw [rd_store_ne _ _ _ _ (Ne.symm hj), rd_store_ne _ _ _ _ (Ne.symm hj)]
        · intro j hj
          show writesAt ((s.mem.store p HUNGRY).store p EATING) j = _
          rw [writesAt_store_ne _ _ _ _ (Ne.symm hj), writesAt_store_ne _ _ _ _ (Ne.symm hj)]
        · intro i hi hpk
          have hpk' := not_parked_of_set (by simp) hpT hpk
          have hH : rd (s.mem.state.set p HUNGRY) p ≠ EATING := by
            rw [rd_set_self _ _ _ hpS]; decide
          rcases hinv.wait i hi hpk'.2 with hq | hq
          · left
            exact rd_set_keeps_eating _ _ _ _ hH (rd_set_keeps_eating _ _ _ _ hT hq)
          · right
            exact rd_set_keeps_eating _ _ _ _ hH (rd_set_keeps_eating _ _ _ _ hT hq)
      · -- a neighbour eats: block
        have hce' : can_eat N (s.mem.store p HUNGRY).state p = false := by
          simpa using hce
        simp only [hce', Bool.not_false, if_true] at h
        injection h with h
        subst h
        refine Inv.update hinv hp [Call.take_forks p]
          (by simp [store_length, hinv.lenState])
          (by simp [hinv.lenThreads]) ?_ ?_ ?_ rfl
          (by simp [Call.actor]) (fun j hj => Or.inl (thr_set_ne _ _ _ _ (Ne.symm hj))) ?_ ?_
        rotate_right
        · rcases eating_neighbour_of_not_can_eat N _ p (rd_store_self _ _ _ hpS) hce' with hq | hq
          · exact ⟨LEFT N p, LEFT_lt N p (by omega), by
              show rd (s.mem.store p HUNGRY).state (LEFT N p) ≠ HUNGRY
              rw [hq]; decide⟩
          · exact ⟨RIGHT N p, RIGHT_lt N p (by omega), by
              show rd (s.mem.store p HUNGRY).state (RIGHT N p) ≠ HUNGRY
              rw [hq]; decide⟩
        · refine Local.of_thread (thr_set_self _ _ _ hpT) ?_ hcount ?_ heatsNew hcallsNew
          · exact rd_store_self _ _ _ hpS
          · show writesAt (s.mem.store p HUNGRY) p = _
            rw [writesAt_store_self, hhist]
            simp [Thread.expectedWrites]
        · intro j hj
          exact rd_store_ne _ _ _ _ (Ne.symm hj)
        · intro j hj
          exact writesAt_store_ne _ _ _ _ (Ne.symm hj)
        · intro i hi hpk
          by_cases hip : i = p
          · rw [hip]
            exact eating_neighbour_of_not_can_eat N _ p (rd_store_self _ _ _ hpS) hce'
          · have hpk' : parked s i := by
              unfold parked at hpk ⊢
              rw [thr_set_ne _ _ _ _ (Ne.symm hip)] at hpk
              exact hpk
            rcases hinv.wait i hi hpk' with hq | hq
            · left
              exact rd_set_keeps_eating _ _ _ _ hT hq
            · right
              exact rd_set_keeps_eating _ _ _ _ hT hq
    · -- blocked in pthread_cond_wait
      exact absurd h (by simp)
    · -- woken: pthread_cond_wait returns
      rename_i hpc
      simp only [Thread.countOk, Thread.expectedWrites, Thread.expectedCalls, hpc, PC.cell]
        at hcell hcount hhist hcalls
      have hH : rd s.mem.state p ≠ EATING := by rw [hcell]; decide
      simp only [take_forks_woken] at h
      injection h with h
      subst h
      refine Inv.update hinv hp []
        (by simp [store_length, hinv.lenState])
        (by simp [hinv.lenThreads]) ?_ ?_ ?_ (by simp)
        (by simp) (fun j hj => Or.inl (thr_set_ne _ _ _ _ (Ne.symm hj))) ?_
        ⟨p, hp, by rw [rd_store_self _ _ _ hpS]; decide⟩
      · refine Local.of_thread (thr_set_self _ _ _ hpT) ?_ hcount ?_ heats hcalls
        · exact rd_store_self _ _ _ hpS
        · show writesAt (s.mem.store p EATING) p = _
          rw [writesAt_store_self, hhist]
          simp [Thread.expectedWrites]
      · intro j hj
        exact rd_store_ne _ _ _ _ (Ne.symm hj)
      · intro j hj
        exact writesAt_store_ne _ _ _ _ (Ne.symm hj)
      · intro i hi hpk
        have hpk' := not_parked_of_set (by simp) hpT hpk
        rcases hinv.wait i hi hpk'.2 with hq | hq
        · left
          exact rd_set_keeps_eating _ _ _ _ hH hq
        · right
          exact rd_set_keeps_eating _ _ _ _ hH hq
    · -- num_eats++ and eat
      rename_i hpc
      simp only [Thread.countOk, Thread.expectedWrites, Thread.expectedCalls, hpc, PC.cell]
        at hcell hcount hhist hcalls
      injection h with h
      subst h
      refine Inv.update hinv hp [Call.eat p ((thr s.threads p).num_eats + 1)] hinv.lenState
        (by simp [eat, hinv.lenThreads]) ?_ (fun _ _ => rfl) (fun _ _ => rfl) rfl
        (by simp [Call.actor]) (fun j hj => Or.inl (thr_set_ne _ _ _ _ (Ne.symm hj)))
        (wait_same_mem hinv (by simp) hpT) (hinv.notAllHungry (by omega))
      refine Local.of_thread (thr_set_self _ _ _ hpT) hcell
        (show 1 ≤ (thr s.threads p).num_eats + 1 ∧ (thr s.threads p).num_eats + 1 ≤ K from
          ⟨by omega, by omega⟩) ?_ ?_ ?_
      · show writesAt s.mem p = _
        rw [hhist]
        simp [Thread.expectedWrites]
      · show eatCount (s.trace ++ [Call.eat p ((thr s.threads p).num_eats + 1)]) p = _
        rw [eatCount_append, heats]
        simp [isEatOf]
      · show callsOf (s.trace ++ [Call.eat p ((thr s.threads p).num_eats + 1)]) p = _
        rw [callsOf_append_self s.trace (Call.eat p ((thr s.threads p).num_eats + 1)) p rfl,
          hcalls]
        simp [Thread.expectedCalls]
    · -- the call of put_forks
      rename_i hpc
      simp only [Thread.countOk, Thread.expectedWrites, Thread.expectedCalls, hpc, PC.cell]
        at hcell hcount hhist hcalls
      injection h with h
      subst h
      have hthr : ∀ j, thr ((put_forks N s.mem p).2.foldl signal
            (s.threads.set p { thr s.threads p with pc := PC.loop })) j =
          if j ∈ (put_forks N s.mem p).2 ∧
              (thr (s.threads.set p { thr s.threads p with pc := PC.loop }) j).pc = PC.waiting
          then { thr (s.threads.set p { thr s.threads p with pc := PC.loop }) j with
            pc := PC.woken }
          else thr (s.threads.set p { thr s.threads p with pc := PC.loop }) j :=
        fun j => thr_signals _ j _
      refine Inv.update hinv hp [Call.put_forks p]
        (by simp [put_forks, store_length, hinv.lenState])
        (by simp [signals_length, hinv.lenThreads]) ?_ ?_ ?_ rfl
        (by simp [Call.actor]) ?_ ?_
        ⟨p, hp, by
          show rd (s.mem.store p THINKING).state p ≠ HUNGRY
          rw [rd_store_self _ _ _ hpS]; decide⟩
      · have hself : thr ((put_forks N s.mem p).2.foldl signal
            (s.threads.set p { thr s.threads p with pc := PC.loop })) p =
            { thr s.threads p with pc := PC.loop } := by
          rw [hthr p, thr_set_self _ _ _ hpT]
          exact if_neg (fun hh => PC.noConfusion hh.2)
        refine Local.of_thread hself ?_ hcount.2 ?_ ?_ ?_
        · exact rd_store_self _ _ _ hpS
        · show writesAt (s.mem.store p THINKING) p = _
          rw [writesAt_store_self, hhist]
          obtain ⟨n, hn⟩ : ∃ n, (thr s.threads p).num_eats = n + 1 :=
            ⟨(thr s.threads p).num_eats - 1, by omega⟩
          simp [Thread.expectedWrites, hn, rounds_succ]
        · show eatCount (s.trace ++ [Call.put_forks p]) p = _
          rw [eatCount_append, heats]; rfl
        · show callsOf (s.trace ++ [Call.put_forks p]) p = _
          rw [callsOf_append_self s.trace (Call.put_forks p) p rfl, hcalls]
          obtain ⟨n, hn⟩ : ∃ n, (thr s.threads p).num_eats = n + 1 :=
            ⟨(thr s.threads p).num_eats - 1, by omega⟩
          simp [Thread.expectedCalls, hn, iterations_succ, iteration]
      · intro j hj
        exact rd_store_ne _ _ _ _ (Ne.symm hj)
      · intro j hj
        exact writesAt_store_ne _ _ _ _ (Ne.symm hj)
      · intro j hj
        show thr ((put_forks N s.mem p).2.foldl signal _) j = _ ∨ _
        rw [hthr j, thr_set_ne _ _ _ _ (Ne.symm hj)]
        by_cases hc : j ∈ (put_forks N s.mem p).2 ∧ (thr s.threads j).pc = PC.waiting
        · right
          exact ⟨hc.2, if_pos hc⟩
        · left
          exact if_neg hc
      · intro i hi hpk
        have hpk1 : (thr ((put_forks N s.mem p).2.foldl signal
            (s.threads.set p { thr s.threads p with pc := PC.loop })) i).pc = PC.waiting := hpk
        rw [hthr i] at hpk1
        have hip : i ≠ p := by
          intro hip
          rw [hip, thr_set_self _ _ _ hpT] at hpk1
          simp at hpk1
        rw [thr_set_ne _ _ _ _ (Ne.symm hip)] at hpk1
        by_cases hc : i ∈ (put_forks N s.mem p).2 ∧ (thr s.threads i).pc = PC.waiting
        · rw [if_pos hc] at hpk1
          exact absurd hpk1 (by simp)
        · rw [if_neg hc] at hpk1
          have hnot : i ∉ (put_forks N s.mem p).2 := fun hm => hc ⟨hm, hpk1⟩
          have hHi : rd s.mem.state i = HUNGRY := by
            rw [(hinv.loc i hi).cell, hpk1]; rfl
          have hHi' : rd (s.mem.state.set p THINKING) i = HUNGRY := by
            rw [rd_set_ne _ _ _ _ (Ne.symm hip)]; exact hHi
          show rd (s.mem.state.set p THINKING) (LEFT N i) = EATING ∨
            rd (s.mem.state.set p THINKING) (RIGHT N i) = EATING
          cases hce : can_eat N (s.mem.state.set p THINKING) i with
          | false => exact eating_neighbour_of_not_can_eat N _ i hHi' hce
          | true =>
              exfalso
              have hce2 := (can_eat_iff N _ i).1 hce
              rcases hinv.wait i hi hpk1 with hq | hq
              · have hpL : p = LEFT N i := by
                  by_contra hne
                  rw [rd_set_ne _ _ _ _ hne] at hce2
                  exact hce2.2.1 hq
                apply hnot
                rw [mem_put_forks]
                exact ⟨Or.inr (by rw [hpL, RIGHT_LEFT N i hi]), hce⟩
              · have hpR : p = RIGHT N i := by
                  by_contra hne
                  rw [rd_set_ne _ _ _ _ hne] at hce2
                  exact hce2.2.2 hq
                apply hnot
                rw [mem_put_forks]
                exact ⟨Or.inl (by rw [hpR, LEFT_RIGHT N i hi]), hce⟩
    · -- terminated
      exact absurd h (by simp)
  · exact absurd h (by simp)

/-! ## Reachable states -/

theorem Inv.reach {N K : Nat} {s0 s : Config} (h : Reach N K s0 s) (h0 : Inv N K s0) :
    Inv N K s := by
  induction h with
  | refl => exact h0
  | next _ hstep ih => exact ih.step_preserves hstep

theorem Reachable.inv {N K : Nat} {s : Config} (h : Reachable N K s) : Inv N K s :=
  Inv.reach h (inv_init N K)

theorem Reach.trans {N K : Nat} {a b c : Config} (hab : Reach N K a b)
    (hbc : Reach N K b c) : Reach N K a c := by
  induction hbc with
  | refl => exact hab
  | next _ hstep ih => exact Reach.next ih hstep

theorem reach_of_run (N K : Nat) :
    ∀ (sched : List Nat) (s s' : Config), run N K s sched = some s' → Reach N K s s' := by
  intro sched
  induction sched with
  | nil =>
      intro s s' h
      simp only [run, Option.some.injEq] at h
      subst h
      exact Reach.refl
  | cons p ps ih =>
      intro s s' h
      simp only [run] at h
      cases hst : step N K s p with
      | none => rw [hst] at h; simp at h
      | some s1 =>
          rw [hst] at h
          exact Reach.trans (Reach.next Reach.refl hst) (ih s1 s' h)

theorem reachable_after (N K : Nat) (sched : List Nat)
    (h : (run N K (init N) sched).isSome = true) : Reachable N K (after N K sched) := by
  unfold after Reachable
  cases hr : run N K (init N) sched with
  | none => rw [hr] at h; simp at h
  | some s' => exact reach_of_run N K sched _ _ hr

theorem step_isSome_of_pc (N K : Nat) (s : Config) (p : Nat) (hp : p < N)
    (h1 : (thr s.threads p).pc ≠ PC.waiting) (h2 : (thr s.threads p).pc ≠ PC.done) :
    (step N K s p).isSome = true := by
  unfold step
  simp only [hp, if_true]
  split
  · rfl
  · split <;> rfl
  · split <;> rfl
  · rename_i h; exact absurd h h1
  · split <;> rfl
  · rfl
  · rfl
  · rename_i h; exact absurd h h2

/-- No deadlock, for every `N`: a state that satisfies the invariant is final
or some thread can move. -/
theorem Inv.no_stuck {N K : Nat} {s : Config} (hinv : Inv N K s) :
    final N s ∨ ∃ p, p < N ∧ (step N K s p).isSome = true := by
  by_cases hfin : final N s
  · exact Or.inl hfin
  · right
    unfold final at hfin
    push_neg at hfin
    obtain ⟨i, hi, hpc⟩ := hfin
    by_cases hw : (thr s.threads i).pc = PC.waiting
    · have hN : 1 ≤ N := by omega
      have key : ∀ q, q < N → rd s.mem.state q = EATING →
          ∃ p, p < N ∧ (step N K s p).isSome = true := by
        intro q hq hE
        refine ⟨q, hq, step_isSome_of_pc N K s q hq ?_ ?_⟩
        · rcases hinv.eating_pc hq hE with h | h <;> rw [h] <;> decide
        · rcases hinv.eating_pc hq hE with h | h <;> rw [h] <;> decide
      rcases hinv.wait i hi hw with hE | hE
      · exact key _ (LEFT_lt N i hN) hE
      · exact key _ (RIGHT_lt N i hN) hE
    · exact ⟨i, hi, step_isSome_of_pc N K s i hi hw hpc⟩

/-- The table is never all `HUNGRY`. -/
theorem Inv.not_all_hungry {N K : Nat} {s : Config} (hinv : Inv N K s) (hN : 0 < N) :
    ¬ ∀ i, i < N → rd s.mem.state i = HUNGRY := by
  intro hall
  obtain ⟨i, hi, hne⟩ := hinv.notAllHungry hN
  exact hne (hall i hi)

/-! ## Counting eat events -/

theorem eatTotal_cons (c : Call) (tr : List Call) :
    eatTotal (c :: tr) = (if isEat c = true then 1 else 0) + eatTotal tr := by
  unfold eatTotal
  by_cases h : isEat c = true
  · simp [List.filter, h]; omega
  · have h' : isEat c = false := by simpa using h
    simp [List.filter, h']

theorem eatCount_cons (c : Call) (tr : List Call) (i : Nat) :
    eatCount (c :: tr) i = (if isEatOf i c = true then 1 else 0) + eatCount tr i := by
  unfold eatCount
  by_cases h : isEatOf i c = true
  · simp [List.filter, h]; omega
  · have h' : isEatOf i c = false := by simpa using h
    simp [List.filter, h']

theorem sum_isEatOf (N : Nat) (c : Call) (hc : c.actor < N) :
    (∑ i in Finset.range N, (if isEatOf i c = true then 1 else 0)) =
      (if isEat c = true then 1 else 0) := by
  cases c with
  | eat q k =>
      have hq : q < N := hc
      simp [isEatOf, isEat, hq]
  | hello q => simp [isEatOf, isEat]
  | think q => simp [isEatOf, isEat]
  | take_forks q => simp [isEatOf, isEat]
  | put_forks q => simp [isEatOf, isEat]

theorem eatTotal_eq_sum (N : Nat) (tr : List Call) (h : ∀ c, c ∈ tr → c.actor < N) :
    eatTotal tr = ∑ i in Finset.range N, eatCount tr i := by
  induction tr with
  | nil => simp [eatTotal, eatCount]
  | cons c tr ih =>
      rw [eatTotal_cons, ih (fun c' hc' => h c' (List.mem_cons_of_mem _ hc'))]
      simp only [eatCount_cons]
      rw [Finset.sum_add_distrib, sum_isEatOf N c (h c (List.mem_cons_self _ _))]

/-! ## Slot histories -/

theorem rounds_succ_front (n : Nat) :
    rounds (n + 1) = HUNGRY :: EATING :: THINKING :: rounds n := by
  simp [rounds, List.replicate_succ]

theorem rounds_cyclic (n : Nat) : cyclic (THINKING :: rounds n) := by
  induction n with
  | zero => simp [rounds, cyclic]
  | succ n ih =>
      rw [rounds_succ_front]
      exact ⟨rfl, rfl, rfl, ih⟩

theorem cyclic_of_append : ∀ l1 l2 : List state_enum, cyclic (l1 ++ l2) → cyclic l1
  | [], _, _ => trivial
  | [_], _, _ => trivial
  | a :: b :: rest, l2, h => by
      have h1 : b = a.next ∧ cyclic (b :: (rest ++ l2)) := h
      exact ⟨h1.1, cyclic_of_append (b :: rest) l2 h1.2⟩

theorem rounds_le (n K : Nat) (h : n ≤ K) : ∃ rest, rounds n ++ rest = rounds K := by
  obtain ⟨d, rfl⟩ := Nat.exists_eq_add_of_le h
  refine ⟨rounds d, ?_⟩
  induction d with
  | zero => simp [rounds]
  | succ d ih =>
      rw [show n + (d + 1) = (n + d) + 1 from rfl, rounds_succ, rounds_succ,
        ← ih (by omega), List.append_assoc]

theorem rounds_getLast (n : Nat) : (THINKING :: rounds n).getLast? = some THINKING := by
  cases n with
  | zero => rfl
  | succ n =>
      rw [rounds_succ, ← List.cons_append, List.getLast?_append]
      rfl

/-- The writes a thread has made so far are the beginning of
`(HUNGRY, EATING, THINKING)` repeated `K` times, and the last value of its
slot history is the value of its program position. -/
theorem Thread.expectedWrites_spec (K : Nat) (t : Thread) (h : t.countOk K) :
    (∃ rest, t.expectedWrites ++ rest = rounds K) ∧
      (THINKING :: t.expectedWrites).getLast? = some t.pc.cell := by
  obtain ⟨pc, n⟩ := t
  have hsplit : ∀ m, m < K → ∀ front : List state_enum, ∀ back : List state_enum,
      front ++ back = [HUNGRY, EATING, THINKING] →
      ∃ rest, (rounds m ++ front) ++ rest = rounds K := by
    intro m hm front back hfb
    obtain ⟨rest, hrest⟩ := rounds_le (m + 1) K hm
    refine ⟨back ++ rest, ?_⟩
    rw [← hrest, rounds_succ, ← hfb]
    simp
  cases pc <;> simp only [Thread.countOk] at h <;>
    simp only [Thread.expectedWrites, PC.cell]
  · exact ⟨rounds_le n K (by omega), rounds_getLast n⟩
  · exact ⟨rounds_le n K h, rounds_getLast n⟩
  · exact ⟨rounds_le n K (by omega), rounds_getLast n⟩
  · refine ⟨hsplit n h [HUNGRY] [EATING, THINKING] rfl, ?_⟩
    rw [← List.cons_append, List.getLast?_append]; rfl
  · refine ⟨hsplit n h [HUNGRY] [EATING, THINKING] rfl, ?_⟩
    rw [← List.cons_append, List.getLast?_append]; rfl
  · refine ⟨hsplit n h [HUNGRY, EATING] [THINKING] rfl, ?_⟩
    rw [← List.cons_append, List.getLast?_append]; rfl
  · refine ⟨hsplit (n - 1) (by omega) [HUNGRY, EATING] [THINKING] rfl, ?_⟩
    rw [← List.cons_append, List.getLast?_append]; rfl
  · exact ⟨rounds_le n K (by omega), rounds_getLast n⟩

/-- Every step of thread `p` appends to the write trace writes of slot `p`
only. -/
theorem step_writes (N K : Nat) (s s' : Config) (p : Nat) (h : step N K s p = some s') :
    ∃ ws : List (Nat × state_enum),
      s'.mem.writes = s.mem.writes ++ ws ∧ ∀ w, w ∈ ws → w.1 = p := by
  unfold step at h
  split at h
  · simp only at h
    split at h
    · injection h with h; subst h; exact ⟨[], by simp, by simp⟩
    · split at h
      · injection h with h; subst h; exact ⟨[], by simp [think], by simp⟩
      · injection h with h; subst h; exact ⟨[], by simp, by simp⟩
    · unfold take_forks at h
      simp only at h
      by_cases hce : can_eat N (s.mem.store p HUNGRY).state p = true
      · simp only [hce, Bool.not_true, Bool.false_eq_true, if_false] at h
        injection h with h; subst h
        exact ⟨[(p, HUNGRY), (p, EATING)], by simp [Mem.store], by simp⟩
      · have hce' : can_eat N (s.mem.store p HUNGRY).state p = false := by simpa using hce
        simp only [hce', Bool.not_false, if_true] at h
        injection h with h; subst h
        exact ⟨[(p, HUNGRY)], by simp [Mem.store], by simp⟩
    · exact absurd h (by simp)
    · simp only [take_forks_woken] at h
      injection h with h; subst h
      exact ⟨[(p, EATING)], by simp [Mem.store], by simp⟩
    · injection h with h; subst h; exact ⟨[], by simp [eat], by simp⟩
    · injection h with h; subst h
      exact ⟨[(p, THINKING)], by simp [put_forks, Mem.store], by simp⟩
    · exact absurd h (by simp)
  · exact absurd h (by simp)

theorem philosopher_eq (K p : Nat) : philosopher K p = Call.hello p :: iterations p K := by
  have h := philosopher_loop_eq K p K 0 (by omega) (by omega)
  have h0 : iterations p 0 = [] := rfl
  rw [h0, List.nil_append] at h
  simp only [philosopher, h]

theorem iterations_le (p n K : Nat) (h : n ≤ K) :
    ∃ rest, iterations p n ++ rest = iterations p K := by
  obtain ⟨d, rfl⟩ := Nat.exists_eq_add_of_le h
  induction d with
  | zero => exact ⟨[], by simp⟩
  | succ d ih =>
      obtain ⟨rest, hrest⟩ := ih (by omega)
      refine ⟨rest ++ iteration p (n + d), ?_⟩
      rw [show n + (d + 1) = (n + d) + 1 from rfl, iterations_succ, ← hrest,
        List.append_assoc]

/-- The calls a thread has made so far are the beginning of the calls of
`philosopher`, and all of them once the thread has terminated. -/
theorem Thread.expectedCalls_spec (K : Nat) (t : Thread) (p : Nat) (h : t.countOk K) :
    (∃ rest, t.expectedCalls p ++ rest = philosopher K p) ∧
      (t.pc = PC.done → t.expectedCalls p = philosopher K p) := by
  obtain ⟨pc, n⟩ := t
  rw [philosopher_eq]
  have hsplit : ∀ m, m < K → ∀ front back : List Call, front ++ back = iteration p m →
      ∃ rest, (Call.hello p :: (iterations p m ++ front)) ++ rest =
        Call.hello p :: iterations p K := by
    intro m hm front back hfb
    obtain ⟨rest, hrest⟩ := iterations_le p (m + 1) K hm
    refine ⟨back ++ rest, ?_⟩
    rw [← hrest, iterations_succ, ← hfb]
    simp
  have hwhole : ∀ m, m ≤ K →
      ∃ rest, (Call.hello p :: iterations p m) ++ rest = Call.hello p :: iterations p K := by
    intro m hm
    obtain ⟨rest, hrest⟩ := iterations_le p m K hm
    exact ⟨rest, by rw [← hrest]; simp⟩
  cases pc <;> simp only [Thread.countOk] at h <;>
    simp only [Thread.expectedCalls]
  · exact ⟨⟨_, List.nil_append _⟩, fun hd => PC.noConfusion hd⟩
  · exact ⟨hwhole n h, fun hd => PC.noConfusion hd⟩
  · exact ⟨hsplit n h [Call.think p]
      [Call.take_forks p, Call.eat p (n + 1), Call.put_forks p] rfl,
      fun hd => PC.noConfusion hd⟩
  · exact ⟨hsplit n h [Call.think p, Call.take_forks p]
      [Call.eat p (n + 1), Call.put_forks p] rfl, fun hd => PC.noConfusion hd⟩
  · exact ⟨hsplit n h [Call.think p, Call.take_forks p]
      [Call.eat p (n + 1), Call.put_forks p] rfl, fun hd => PC.noConfusion hd⟩
  · exact ⟨hsplit n h [Call.think p, Call.take_forks p]
      [Call.eat p (n + 1), Call.put_forks p] rfl, fun hd => PC.noConfusion hd⟩
  · obtain ⟨m, rfl⟩ : ∃ m, n = m + 1 := ⟨n - 1, by omega⟩
    exact ⟨hsplit m (by omega) [Call.think p, Call.take_forks p, Call.eat p (m + 1)]
      [Call.put_forks p] rfl, fun hd => PC.noConfusion hd⟩
  · subst h
    exact ⟨⟨[], by simp⟩, fun _ => rfl⟩

/-! ## The claims about the functions -/

/-- C2: on a table of length `N ≥ 1` and for an index `i < N`, `can_eat(i)`
is true exactly when `state[i] == HUNGRY`, `state[(i + N - 1) % N] != EATING`
and `state[(i + 1) % N] != EATING`; the same holds for the calls
`can_eat(LEFT(i))` and `can_eat(RIGHT(i))` of `put_forks`, which test the
indices `(i + N - 1) % N` and `(i + 1) % N`; every index read is below `N`.
(`can_eat` returns a boolean only: the table is an input and never an
output.) -/
theorem C2_can_eat_spec (N : Nat) (st : List state_enum) (i : Nat)
    (hN : 1 ≤ N) (hlen : st.length = N) (hi : i < N) :
    (can_eat N st i = true ↔
      rd st i = HUNGRY ∧ rd st ((i + N - 1) % N) ≠ EATING ∧ rd st ((i + 1) % N) ≠ EATING) ∧
    (can_eat N st (LEFT N i) = true ↔
      rd st ((i + N - 1) % N) = HUNGRY ∧
        rd st (((i + N - 1) % N + N - 1) % N) ≠ EATING ∧
        rd st (((i + N - 1) % N + 1) % N) ≠ EATING) ∧
    (can_eat N st (RIGHT N i) = true ↔
      rd st ((i + 1) % N) = HUNGRY ∧
        rd st (((i + 1) % N + N - 1) % N) ≠ EATING ∧
        rd st (((i + 1) % N + 1) % N) ≠ EATING) ∧
    (i < st.length ∧ LEFT N i < st.length ∧ RIGHT N i < st.length ∧
      LEFT N (LEFT N i) < st.length ∧ RIGHT N (LEFT N i) < st.length ∧
      LEFT N (RIGHT N i) < st.length ∧ RIGHT N (RIGHT N i) < st.length) := by
  refine ⟨can_eat_iff N st i, can_eat_iff N st (LEFT N i), can_eat_iff N st (RIGHT N i), ?_⟩
  rw [hlen]
  exact ⟨hi, LEFT_lt N _ hN, RIGHT_lt N _ hN, LEFT_lt N _ hN, RIGHT_lt N _ hN,
    LEFT_lt N _ hN, RIGHT_lt N _ hN⟩

/-- C2, at the fixture `[HUNGRY, EATING, THINKING, HUNGRY, THINKING]`:
`can_eat(0)` is false and `can_eat(3)` is true. -/
theorem C2_can_eat_spec_witness :
    can_eat 5 [HUNGRY, EATING, THINKING, HUNGRY, THINKING] 0 = false ∧
    can_eat 5 [HUNGRY, EATING, THINKING, HUNGRY, THINKING] 3 = true ∧
    (can_eat 5 [HUNGRY, EATING, THINKING, HUNGRY, THINKING] 3 = true ↔
      rd [HUNGRY, EATING, THINKING, HUNGRY, THINKING] 3 = HUNGRY ∧
      rd [HUNGRY, EATING, THINKING, HUNGRY, THINKING] ((3 + 5 - 1) % 5) ≠ EATING ∧
      rd [HUNGRY, EATING, THINKING, HUNGRY, THINKING] ((3 + 1) % 5) ≠ EATING) :=
  ⟨by decide, by decide,
    (C2_can_eat_spec 5 [HUNGRY, EATING, THINKING, HUNGRY, THINKING] 3
      (by decide) (by decide) (by decide)).1⟩

/-- C3: on a table of length `N ≥ 1` and for `i < N`, `put_forks(i)` makes
the single write `state[i] = THINKING`, leaves every other slot as it was, and
signals the condition of index `j` exactly when `j` is `LEFT(i)` or `RIGHT(i)`
and `can_eat(j)` holds on the table after the write; no other condition is
signalled. -/
theorem C3_put_forks_targeted (N : Nat) (m : Mem) (i : Nat)
    (hN : 1 ≤ N) (hlen : m.state.length = N) (hi : i < N) :
    rd (put_forks N m i).1.state i = THINKING ∧
    (∀ j, j ≠ i → rd (put_forks N m i).1.state j = rd m.state j) ∧
    (put_forks N m i).1.state.length = N ∧
    (put_forks N m i).1.writes = m.writes ++ [(i, THINKING)] ∧
    (∀ j, j ∈ (put_forks N m i).2 ↔
      (j = LEFT N i ∨ j = RIGHT N i) ∧ can_eat N (put_forks N m i).1.state j = true) ∧
    (∀ j, j ≠ LEFT N i → j ≠ RIGHT N i → j ∉ (put_forks N m i).2) := by
  refine ⟨?_, ?_, ?_, rfl, ?_, ?_⟩
  · exact rd_set_self _ _ _ (by omega)
  · intro j hj
    exact rd_set_ne _ _ _ _ (Ne.symm hj)
  · simp [put_forks, Mem.store, hlen]
  · intro j
    exact mem_put_forks N m i j
  · intro j h1 h2 hmem
    rcases (mem_put_forks N m i j).1 hmem with ⟨h | h, _⟩
    · exact h1 h
    · exact h2 h

/-- C3, at `N = 5`: philosopher 0 puts its forks down while 1 is hungry and 2
thinks, and 4 is hungry next to the eating 3; exactly the condition of 1 is
signalled. -/
theorem C3_put_forks_targeted_witness :
    (put_forks 5 ⟨[EATING, HUNGRY, THINKING, EATING, HUNGRY], []⟩ 0).2 = [1] ∧
    (∀ j, j ∈ (put_forks 5 ⟨[EATING, HUNGRY, THINKING, EATING, HUNGRY], []⟩ 0).2 ↔
      (j = LEFT 5 0 ∨ j = RIGHT 5 0) ∧
        can_eat 5 (put_forks 5 ⟨[EATING, HUNGRY, THINKING, EATING, HUNGRY], []⟩ 0).1.state j
          = true) :=
  ⟨by decide,
    (C3_put_forks_targeted 5 ⟨[EATING, HUNGRY, THINKING, EATING, HUNGRY], []⟩ 0
      (by decide) (by decide) (by decide)).2.2.2.2.1⟩

/-- C8 (counterexample): on `[HUNGRY, HUNGRY, THINKING, THINKING, THINKING]`
with `N = 5`, `can_eat(0)` and `can_eat(RIGHT(0)) = can_eat(1)` are both
true. -/
theorem C8_counterexample :
    (2 ≤ 5 ∧ [HUNGRY, HUNGRY, THINKING, THINKING, THINKING].length = 5 ∧ 0 < 5) ∧
    can_eat 5 [HUNGRY, HUNGRY, THINKING, THINKING, THINKING] 0 = true ∧
    can_eat 5 [HUNGRY, HUNGRY, THINKING, THINKING, THINKING] (RIGHT 5 0) = true := by
  decide

/-- C8 (amended): on a table of length `N ≥ 2` and for `i < N`, `can_eat(i)`
and `can_eat(RIGHT(i))` are both true exactly when `state[i]` and
`state[RIGHT(i)]` are both `HUNGRY` and neither `state[LEFT(i)]` nor
`state[RIGHT(RIGHT(i))]` is `EATING`; and when one of `state[i]`,
`state[RIGHT(i)]` is `EATING`, `can_eat` is false at both indices. -/
theorem C8_adjacent_eligibility (N : Nat) (st : List state_enum) (i : Nat)
    (hN : 2 ≤ N) (hlen : st.length = N) (hi : i < N) :
    ((can_eat N st i = true ∧ can_eat N st (RIGHT N i) = true) ↔
      (rd st i = HUNGRY ∧ rd st (RIGHT N i) = HUNGRY ∧
        rd st (LEFT N i) ≠ EATING ∧ rd st (RIGHT N (RIGHT N i)) ≠ EATING)) ∧
    (rd st i = EATING ∨ rd st (RIGHT N i) = EATING →
      can_eat N st i = false ∧ can_eat N st (RIGHT N i) = false) := by
  have hLR : LEFT N (RIGHT N i) = i := LEFT_RIGHT N i hi
  constructor
  · rw [can_eat_iff, can_eat_iff, hLR]
    constructor
    · rintro ⟨⟨h1, h2, h3⟩, h4, h5, h6⟩
      exact ⟨h1, h4, h2, h6⟩
    · rintro ⟨h1, h2, h3, h4⟩
      refine ⟨⟨h1, h3, ?_⟩, h2, ?_, h4⟩
      · rw [h2]; decide
      · rw [h1]; decide
  · intro h
    rw [← Bool.not_eq_true, ← Bool.not_eq_true, can_eat_iff, can_eat_iff, hLR]
    rcases h with h | h
    · constructor
      · rintro ⟨h1, _, _⟩
        rw [h] at h1
        exact absurd h1 (by decide)
      · rintro ⟨_, h2, _⟩
        exact h2 h
    · constructor
      · rintro ⟨_, _, h3⟩
        exact h3 h
      · rintro ⟨h1, _, _⟩
        rw [h] at h1
        exact absurd h1 (by decide)

/-- C8 (amended), at the fixture `[HUNGRY, EATING, THINKING, HUNGRY, THINKING]`:
`can_eat(0)` is false and `can_eat(3)` is true, and 0 and its eating right
neighbour 1 are both ineligible. -/
theorem C8_adjacent_eligibility_witness :
    can_eat 5 [HUNGRY, EATING, THINKING, HUNGRY, THINKING] 0 = false ∧
    can_eat 5 [HUNGRY, EATING, THINKING, HUNGRY, THINKING] 3 = true ∧
    (rd [HUNGRY, EATING, THINKING, HUNGRY, THINKING] 0 = EATING ∨
        rd [HUNGRY, EATING, THINKING, HUNGRY, THINKING] (RIGHT 5 0) = EATING →
      can_eat 5 [HUNGRY, EATING, THINKING, HUNGRY, THINKING] 0 = false ∧
        can_eat 5 [HUNGRY, EATING, THINKING, HUNGRY, THINKING] (RIGHT 5 0) = false) :=
  ⟨by decide, by decide,
    (C8_adjacent_eligibility 5 [HUNGRY, EATING, THINKING, HUNGRY, THINKING] 0
      (by decide) (by decide) (by decide)).2⟩

/-! ## The claims about the interleaved program -/

/-- C1 (failing input): with `N = 5`, `MAX_EAT = 5`, the state `lateWake` is
reachable; in it philosopher 1 has been signalled by `put_forks(0)` but has
not run again, its right neighbour 2 has meanwhile started to eat, and
`can_eat(1)` is false.  The next step of philosopher 1 writes
`state[1] = EATING`: the reachable state `bothEat5` has the ring neighbours 1
and 2 both `EATING`. -/
theorem C1_late_wake_breaks_exclusion :
    Reachable 5 5 lateWake ∧
    (thr lateWake.threads 1).pc = PC.woken ∧
    lateWake.mem.state = [THINKING, HUNGRY, EATING, THINKING, THINKING] ∧
    can_eat 5 lateWake.mem.state 1 = false ∧
    step 5 5 lateWake 1 = some bothEat5 ∧
    Reachable 5 5 bothEat5 ∧
    bothEat5.mem.state = [THINKING, EATING, EATING, THINKING, THINKING] ∧
    rd bothEat5.mem.state 1 = EATING ∧ rd bothEat5.mem.state (RIGHT 5 1) = EATING :=
  ⟨reachable_after 5 5 _ (by decide), by decide, by decide, by decide, by decide,
    reachable_after 5 5 _ (by decide), by decide, by decide, by decide⟩

/-- C4 (failing input): a thread woken in `take_forks` never tests `can_eat`
again.  In the reachable state `lateWake` (`N = 5`) philosopher 1 has been
woken while `can_eat(1)` is false, and the rest of `take_forks(1)` returns
with `state[1] = EATING`; likewise on the table
`[HUNGRY, EATING, THINKING, THINKING, THINKING]`, where `can_eat(0)` is false,
a wakeup of the blocked philosopher 0 makes `take_forks(0)` write
`state[0] = EATING` and return. -/
theorem C4_woken_without_recheck :
    (Reachable 5 5 lateWake ∧ (thr lateWake.threads 1).pc = PC.woken ∧
      can_eat 5 lateWake.mem.state 1 = false ∧
      ∃ m, take_forks_woken lateWake.mem 1 = Outcome.returns m ∧ rd m.state 1 = EATING) ∧
    (can_eat 5 [HUNGRY, EATING, THINKING, THINKING, THINKING] 0 = false ∧
      take_forks_woken ⟨[HUNGRY, EATING, THINKING, THINKING, THINKING], []⟩ 0 =
        Outcome.returns ⟨[EATING, EATING, THINKING, THINKING, THINKING], [(0, EATING)]⟩) :=
  ⟨⟨reachable_after 5 5 _ (by decide), by decide, by decide, _, rfl, by decide⟩,
    by decide, by decide⟩

/-- C5 (counterexample): with `N = 3`, `MAX_EAT = 1`, from the state in which
all three philosophers are about to call `take_forks`, no state is reachable
in which `state[0]`, `state[1]`, `state[2]` are all `HUNGRY` and no thread can
move. -/
theorem C5_counterexample :
    ¬ ∃ s, Reach 3 1 allAboutToTake3 s ∧
      (∀ i, i < 3 → rd s.mem.state i = HUNGRY) ∧ (∀ p, step 3 1 s p = none) := by
  rintro ⟨s, hs, hall, _⟩
  have h0 : Reachable 3 1 allAboutToTake3 := reachable_after 3 1 _ (by decide)
  have hinv : Inv 3 1 s := Reachable.inv (Reach.trans h0 hs)
  exact hinv.not_all_hungry (by decide) hall

/-- C5 (amended): with `N = 3`, `MAX_EAT = 1`, in every state reachable from
the one in which all three philosophers are about to call `take_forks`, the
table is not all `HUNGRY`, and either all three loops have terminated or
some thread can move. -/
theorem C5_three_philosophers_no_deadlock (s : Config)
    (hs : Reach 3 1 allAboutToTake3 s) :
    (¬ ∀ i, i < 3 → rd s.mem.state i = HUNGRY) ∧
    (final 3 s ∨ ∃ p, p < 3 ∧ (step 3 1 s p).isSome = true) := by
  have h0 : Reachable 3 1 allAboutToTake3 := reachable_after 3 1 _ (by decide)
  have hinv : Inv 3 1 s := Reachable.inv (Reach.trans h0 hs)
  exact ⟨hinv.not_all_hungry (by decide), hinv.no_stuck⟩

/-- C5 (amended), at the state in which philosopher 0 eats and 1 and 2 are
both blocked: the table is `[EATING, HUNGRY, HUNGRY]` and a thread can
move. -/
theorem C5_three_philosophers_no_deadlock_witness :
    Reach 3 1 allAboutToTake3 twoParked3 ∧
    twoParked3.mem.state = [EATING, HUNGRY, HUNGRY] ∧
    ((¬ ∀ i, i < 3 → rd twoParked3.mem.state i = HUNGRY) ∧
      (final 3 twoParked3 ∨ ∃ p, p < 3 ∧ (step 3 1 twoParked3 p).isSome = true)) :=
  ⟨reach_of_run 3 1 [0, 1, 2] _ _ (by decide), by decide,
    C5_three_philosophers_no_deadlock twoParked3
      (reach_of_run 3 1 [0, 1, 2] _ _ (by decide))⟩

/-- C6: for `N ≥ 1`, `N ≠ 3` and `MAX_EAT = K ≥ 1`, every state reachable
from the all-`THINKING` start is final or has a thread that can move, and no
thread is parked (blocked with no signal pending) while neither of its ring
neighbours is `EATING`.  (The proof uses neither `N ≠ 3` nor `K ≥ 1`.) -/
theorem C6_no_stuck_state (N K : Nat) (hN : 1 ≤ N) (hN3 : N ≠ 3) (hK : 1 ≤ K)
    (s : Config) (hs : Reachable N K s) :
    (final N s ∨ ∃ p, p < N ∧ (step N K s p).isSome = true) ∧
    (∀ i, i < N → ¬ (parked s i ∧
      rd s.mem.state (LEFT N i) ≠ EATING ∧ rd s.mem.state (RIGHT N i) ≠ EATING)) := by
  have hinv := hs.inv
  refine ⟨hinv.no_stuck, ?_⟩
  rintro i hi ⟨hpk, hl, hr⟩
  rcases hinv.wait i hi hpk with h | h
  · exact hl h
  · exact hr h

/-- C6, at `N = 5`, `MAX_EAT = 5`, in the state in which philosopher 0 eats
and philosopher 1 is parked. -/
theorem C6_no_stuck_state_witness :
    Reachable 5 5 oneParked5 ∧ parked oneParked5 1 ∧
    ((final 5 oneParked5 ∨ ∃ p, p < 5 ∧ (step 5 5 oneParked5 p).isSome = true) ∧
      (∀ i, i < 5 → ¬ (parked oneParked5 i ∧
        rd oneParked5.mem.state (LEFT 5 i) ≠ EATING ∧
        rd oneParked5.mem.state (RIGHT 5 i) ≠ EATING))) :=
  ⟨reachable_after 5 5 _ (by decide), by decide,
    C6_no_stuck_state 5 5 (by decide) (by decide) (by decide) oneParked5
      (reachable_after 5 5 _ (by decide))⟩

/-- C7: for `N ≥ 1` and `MAX_EAT = K`, in every reachable state in which
all `N` philosopher loops have terminated, every philosopher has made exactly
`K` eat calls, the trace holds `N * K` eat calls in total, and the table is
`THINKING` at every index. -/
theorem C7_completion (N K : Nat) (hN : 1 ≤ N) (s : Config)
    (hs : Reachable N K s) (hfin : final N s) :
    (∀ i, i < N → eatCount s.trace i = K) ∧
    eatTotal s.trace = N * K ∧
    (∀ i, i < N → rd s.mem.state i = THINKING) ∧
    s.mem.state = List.replicate N THINKING := by
  have hinv := hs.inv
  have hcount : ∀ i, i < N → eatCount s.trace i = K := by
    intro i hi
    have h1 := (hinv.loc i hi).eats
    have h2 := (hinv.loc i hi).count
    simp only [Thread.countOk, hfin i hi] at h2
    rw [h1, h2]
  have hcell : ∀ i, i < N → rd s.mem.state i = THINKING := by
    intro i hi
    rw [(hinv.loc i hi).cell, hfin i hi]
    rfl
  refine ⟨hcount, ?_, hcell, ?_⟩
  · rw [eatTotal_eq_sum N s.trace hinv.actors,
      Finset.sum_congr rfl (fun i hi => hcount i (Finset.mem_range.1 hi))]
    simp
  · apply List.ext_getElem
    · simp [hinv.lenState]
    · intro i h1 h2
      have hi : i < N := by rw [← hinv.lenState]; exact h1
      have := hcell i hi
      simp only [rd, List.getD_eq_getElem?_getD, List.getElem?_eq_getElem h1,
        Option.getD_some] at this
      simp [this]

/-- C7, at `N = 5`, `MAX_EAT = 5`: after the five philosophers have run to
completion one after the other, 25 eat calls have been made and the table is
all `THINKING`. -/
theorem C7_completion_witness :
    Reachable 5 5 allDone5 ∧ final 5 allDone5 ∧
    ((∀ i, i < 5 → eatCount allDone5.trace i = 5) ∧
      eatTotal allDone5.trace = 5 * 5 ∧
      (∀ i, i < 5 → rd allDone5.mem.state i = THINKING) ∧
      allDone5.mem.state = List.replicate 5 THINKING) :=
  ⟨reachable_after 5 5 _ (by decide), by decide,
    C7_completion 5 5 (by decide) allDone5 (reachable_after 5 5 _ (by decide)) (by decide)⟩

/-- C9: in every reachable state, the history of values of every slot `i`
(its initial `THINKING`, then every value written to it) is the beginning of
`THINKING, (HUNGRY, EATING, THINKING)` repeated `MAX_EAT` times, so that each
value is followed by its successor in the cycle, and it ends with the current
`state[i]`; and every step of a thread `p` writes to slot `p` only. -/
theorem C9_cyclic_slot_history (N K : Nat) (s : Config) (hs : Reachable N K s) :
    (∀ i, i < N →
      (∃ rest, slotHistory s.mem i ++ rest = THINKING :: rounds K) ∧
      cyclic (slotHistory s.mem i) ∧
      (slotHistory s.mem i).getLast? = some (rd s.mem.state i)) ∧
    (∀ p s', step N K s p = some s' →
      ∃ ws : List (Nat × state_enum),
        s'.mem.writes = s.mem.writes ++ ws ∧ ∀ w, w ∈ ws → w.1 = p) := by
  have hinv := hs.inv
  refine ⟨?_, fun p s' h => step_writes N K s s' p h⟩
  intro i hi
  have hl := hinv.loc i hi
  obtain ⟨⟨rest, hrest⟩, hlast⟩ := Thread.expectedWrites_spec K _ hl.count
  have hpre : slotHistory s.mem i ++ rest = THINKING :: rounds K := by
    simp only [slotHistory, hl.hist, List.cons_append, hrest]
  refine ⟨⟨rest, hpre⟩, ?_, ?_⟩
  · apply cyclic_of_append _ rest
    rw [hpre]
    exact rounds_cyclic K
  · simp only [slotHistory, hl.hist, hlast, hl.cell]

/-- C9, at `N = 5`, `MAX_EAT = 5`, in the state `lateWake`: slot 0 has gone
through `THINKING, HUNGRY, EATING, THINKING`, slot 1 through
`THINKING, HUNGRY`. -/
theorem C9_cyclic_slot_history_witness :
    slotHistory lateWake.mem 0 = [THINKING, HUNGRY, EATING, THINKING] ∧
    slotHistory lateWake.mem 1 = [THINKING, HUNGRY] ∧
    (∀ i, i < 5 →
      (∃ rest, slotHistory lateWake.mem i ++ rest = THINKING :: rounds 5) ∧
      cyclic (slotHistory lateWake.mem i) ∧
      (slotHistory lateWake.mem i).getLast? = some (rd lateWake.mem.state i)) :=
  ⟨by decide, by decide,
    (C9_cyclic_slot_history 5 5 lateWake (reachable_after 5 5 _ (by decide))).1⟩

/-- C10: `philosopher` with `MAX_EAT = K` terminates (it is a total function
of `K` and `p`), and the calls it makes are the greeting followed, for
`k = 1, ..., K` in this order, by `think(p)`, `take_forks(p)`, `eat(p, k)`,
`put_forks(p)`: exactly `K` iterations, the serving number counting from 1;
`think` and `eat` leave the shared memory as it is; and in every reachable
state of the interleaved program the calls thread `p` has made are the
beginning of that sequence, all of it once the thread has terminated. -/
theorem C10_philosopher_trace (K p : Nat) :
    philosopher K p =
      Call.hello p :: (List.range K).flatMap (fun k =>
        [Call.think p, Call.take_forks p, Call.eat p (k + 1), Call.put_forks p]) ∧
    (philosopher K p).length = 1 + 4 * K ∧
    (∀ s : Config, (think s p).mem = s.mem) ∧
    (∀ (s : Config) (k : Nat), (eat s p k).mem = s.mem) ∧
    (∀ (N : Nat) (s : Config), Reachable N K s → p < N →
      (∃ rest, callsOf s.trace p ++ rest = philosopher K p) ∧
      ((thr s.threads p).pc = PC.done → callsOf s.trace p = philosopher K p)) := by
  refine ⟨?_, ?_, fun _ => rfl, fun _ _ => rfl, ?_⟩
  · rw [philosopher_eq]
    rfl
  · rw [philosopher_eq, List.length_cons, iterations_length]
    omega
  · intro N s hs hp
    have hl := hs.inv.loc p hp
    rw [hl.calls]
    exact Thread.expectedCalls_spec K _ p hl.count

/-- C10, at `MAX_EAT = 2` and philosopher 3, and for philosopher 0 in the
state `allDone5` of the program with `N = 5`, `MAX_EAT = 5`. -/
theorem C10_philosopher_trace_witness :
    philosopher 2 3 =
      [Call.hello 3, Call.think 3, Call.take_forks 3, Call.eat 3 1, Call.put_forks 3,
        Call.think 3, Call.take_forks 3, Call.eat 3 2, Call.put_forks 3] ∧
    Reachable 5 5 allDone5 ∧
    callsOf allDone5.trace 0 = philosopher 5 0 :=
  ⟨(C10_philosopher_trace 2 3).1.trans (by decide), reachable_after 5 5 _ (by decide),
    ((C10_philosopher_trace 5 0).2.2.2.2 5 allDone5
      (reachable_after 5 5 _ (by decide)) (by decide)).2 (by decide)⟩

end DiningPhilosophers
